import Mathlib

/-!
Verification of the mlpack dictionary-encoding core
(`src/mlpack/core/data/encoding_policies/dictionary_encoding.hpp`).

The output matrix (Armadillo `mat`/`sp_mat` restricted to the integer
values this policy writes) is embedded as a list of rows of naturals.
`DictionaryEncoding::InitMatrix` and `DictionaryEncoding::Encode` are
translated directly from the source; the `PolicyTraits<DictionaryEncoding>`
specialization becomes a record of its three static boolean members.
The `Dictionary` / `StringEncoding` driver used by some properties is not
part of the sampled source and is modelled from the specification text.
-/

namespace Mlpack

/-- A dense two-dimensional container of naturals, row-major. -/
structure Mat where
  data : List (List Nat)
deriving DecidableEq, Repr

/-- Element lookup with a default, used to read matrix cells. -/
def nthD {α : Type} (d : α) : List α → Nat → α
  | [], _ => d
  | x :: _, 0 => x
  | _ :: xs, n + 1 => nthD d xs n

/-- In-place element update; out-of-range indices leave the list unchanged. -/
def setNth {α : Type} : List α → Nat → α → List α
  | [], _, _ => []
  | _ :: xs, 0, v => v :: xs
  | x :: xs, n + 1, v => x :: setNth xs n v

/-- Value of the cell at `(r, c)` (0 outside the stored area). -/
def getCell (m : Mat) (r c : Nat) : Nat :=
  nthD 0 (nthD [] m.data r) c

/-- Number of rows of the matrix. -/
def numRows (m : Mat) : Nat :=
  m.data.length

/-- Length of row `r` of the matrix. -/
def rowLen (m : Mat) (r : Nat) : Nat :=
  (nthD [] m.data r).length

namespace DictionaryEncoding

/-- `DictionaryEncoding::InitMatrix(output, datasetSize, colSize, mappingsSize)`:
`output.zeros(datasetSize, colSize)` — the previous contents are discarded and
the matrix becomes `datasetSize × colSize`, all zero.  The `mappingsSize`
parameter is unnamed in the source and unused. -/
def InitMatrix (_output : Mat) (datasetSize colSize : Nat)
    (_mappingsSize : Nat) : Mat :=
  ⟨List.replicate datasetSize (List.replicate colSize 0)⟩

/-- `DictionaryEncoding::Encode(ele, output, row, col)`:
`output.at(row, col) = ele` — the raw index value is stored at the cell. -/
def Encode (ele : Nat) (output : Mat) (row col : Nat) : Mat :=
  ⟨setNth output.data row (setNth (nthD [] output.data row) col ele)⟩

end DictionaryEncoding

/-- The static members of a `PolicyTraits<Policy>` specialization. -/
structure PolicyTraits where
  isSinglePass : Bool
  outputWithNoPadding : Bool
  isMultiPass : Bool

/-- `PolicyTraits<DictionaryEncoding>` as declared in the source. -/
def dictionaryEncodingTraits : PolicyTraits :=
  { isSinglePass := true
    outputWithNoPadding := true
    isMultiPass := false }

/-! ### Basic list lemmas for the embedding -/

theorem length_setNth {α : Type} (l : List α) (i : Nat) (v : α) :
    (setNth l i v).length = l.length := by
  induction l generalizing i with
  | nil => rfl
  | cons x xs ih =>
    cases i with
    | zero => rfl
    | succ n => simp [setNth, ih]

theorem nthD_setNth_eq {α : Type} (d : α) (l : List α) (i : Nat) (v : α)
    (h : i < l.length) : nthD d (setNth l i v) i = v := by
  induction l generalizing i with
  | nil => simp at h
  | cons x xs ih =>
    cases i with
    | zero => rfl
    | succ n =>
      simp [setNth, nthD]
      exact ih n (Nat.lt_of_succ_lt_succ h)

theorem nthD_setNth_ne {α : Type} (d : α) (l : List α) (i j : Nat) (v : α)
    (h : i ≠ j) : nthD d (setNth l i v) j = nthD d l j := by
  induction l generalizing i j with
  | nil => rfl
  | cons x xs ih =>
    cases i with
    | zero =>
      cases j with
      | zero => exact absurd rfl h
      | succ m => rfl
    | succ n =>
      cases j with
      | zero => rfl
      | succ m =>
        simp [setNth, nthD]
        exact ih n m (fun he => h (by rw [he]))

theorem setNth_oob {α : Type} (l : List α) (i : Nat) (v : α)
    (h : l.length ≤ i) : setNth l i v = l := by
  induction l generalizing i with
  | nil => rfl
  | cons x xs ih =>
    cases i with
    | zero => simp at h
    | succ n =>
      simp [setNth]
      exact ih n (Nat.le_of_succ_le_succ h)

theorem setNth_setNth {α : Type} (l : List α) (i : Nat) (v w : α) :
    setNth (setNth l i v) i w = setNth l i w := by
  induction l generalizing i with
  | nil => rfl
  | cons x xs ih =>
    cases i with
    | zero => rfl
    | succ n => simp [setNth, ih]

theorem nthD_replicate {α : Type} (d a : α) (n i : Nat) (h : i < n) :
    nthD d (List.replicate n a) i = a := by
  induction n generalizing i with
  | zero => simp at h
  | succ k ih =>
    cases i with
    | zero => rfl
    | succ m =>
      simp [List.replicate, nthD]
      exact ih m (Nat.lt_of_succ_lt_succ h)

theorem nthD_replicate_oob {α : Type} (d a : α) (n i : Nat) (h : n ≤ i) :
    nthD d (List.replicate n a) i = d := by
  induction n generalizing i with
  | zero => simp [List.replicate, nthD]
  | succ k ih =>
    cases i with
    | zero => simp at h
    | succ m =>
      simp [List.replicate, nthD]
      exact ih m (Nat.le_of_succ_le_succ h)

/-! ### Frame and cell lemmas about `Encode` and `InitMatrix` -/

theorem encode_numRows (ele : Nat) (m : Mat) (row col : Nat) :
    numRows (DictionaryEncoding.Encode ele m row col) = numRows m := by
  simp [numRows, DictionaryEncoding.Encode, length_setNth]

theorem encode_rowLen (ele : Nat) (m : Mat) (row col : Nat) (r : Nat) :
    rowLen (DictionaryEncoding.Encode ele m row col) r = rowLen m r := by
  unfold rowLen DictionaryEncoding.Encode
  by_cases h : row = r
  · subst h
    by_cases hb : row < m.data.length
    · rw [nthD_setNth_eq _ _ _ _ hb, length_setNth]
    · rw [setNth_oob _ _ _ (Nat.le_of_not_lt hb)]
  · rw [nthD_setNth_ne _ _ _ _ _ h]

theorem encode_getCell_ne (ele : Nat) (m : Mat) (row col r c : Nat)
    (h : ¬(r = row ∧ c = col)) :
    getCell (DictionaryEncoding.Encode ele m row col) r c = getCell m r c := by
  unfold getCell DictionaryEncoding.Encode
  by_cases hr : row = r
  · subst hr
    have hc : c ≠ col := fun he => h ⟨rfl, he⟩
    by_cases hb : row < m.data.length
    · rw [nthD_setNth_eq _ _ _ _ hb, nthD_setNth_ne _ _ _ _ _ (fun he => hc he.symm)]
    · rw [setNth_oob _ _ _ (Nat.le_of_not_lt hb)]
  · rw [nthD_setNth_ne _ _ _ _ _ hr]

theorem initMatrix_getCell (m : Mat) (ds cs ms r c : Nat) :
    getCell (DictionaryEncoding.InitMatrix m ds cs ms) r c = 0 := by
  unfold getCell DictionaryEncoding.InitMatrix
  by_cases hr : r < ds
  · rw [nthD_replicate _ _ _ _ hr]
    by_cases hc : c < cs
    · rw [nthD_replicate _ _ _ _ hc]
    · rw [nthD_replicate_oob _ _ _ _ (Nat.le_of_not_lt hc)]
  · rw [nthD_replicate_oob _ _ _ _ (Nat.le_of_not_lt hr)]
    rfl

/-! ### The Dictionary and the encoding driver

Modelled from the spec: the `Dictionary` class and the `StringEncoding`
driver are not part of the sampled source; only the policy header is.
They are embedded here following the specification text (sections 3, 4.1
and 4.4): the dictionary is an append-only token → index map assigning
dense contiguous indices in first-seen order starting at base 0, and the
driver zero-fills the output via `InitMatrix`, then walks every sequence
and every token, assigning indices through the dictionary and writing
them through `Encode` at `(row, col)`. -/

/-- Modelled from the spec: a `Dictionary` is an append-only list of
distinct tokens; a token's index is its position (first-seen order,
base 0). -/
def idxOf : List String → String → Nat
  | [], _ => 0
  | x :: xs, t => if x = t then 0 else idxOf xs t + 1

/-- Modelled from the spec: `GetOrAssign(token)` returns the existing
index if the token was seen before, otherwise appends the token and
returns the next contiguous index. -/
def getOrAssign (d : List String) (t : String) : List String × Nat :=
  if t ∈ d then (d, idxOf d t) else (d ++ [t], d.length)

/-- Modelled from the spec: `TokenAt(index)` reverse lookup; `none`
stands for the `NotFoundError` raised when the index was never
assigned. -/
def tokenAt : List String → Nat → Option String
  | [], _ => none
  | x :: _, 0 => some x
  | _ :: xs, n + 1 => tokenAt xs n

/-- Modelled from the spec: the dictionary obtained after feeding the
tokens of a session, in order, through `GetOrAssign`. -/
def buildDict (d : List String) : List String → List String
  | [] => d
  | t :: ts => buildDict (getOrAssign d t).1 ts

/-- Modelled from the spec: the driver step that encodes the tokens of
one sequence into row `row`, starting at column `col`, threading the
dictionary. -/
def encodeTokens (d : List String) (m : Mat) (row col : Nat) :
    List String → List String × Mat
  | [] => (d, m)
  | t :: ts =>
    let p := getOrAssign d t
    encodeTokens p.1 (DictionaryEncoding.Encode p.2 m row col) row (col + 1) ts

/-- Modelled from the spec: the driver loop over the sequences of the
batch; sequence `k` of the batch is written into row `row + k`. -/
def encodeRows (d : List String) (m : Mat) (row : Nat) :
    List (List String) → List String × Mat
  | [] => (d, m)
  | s :: ss =>
    let p := encodeTokens d m row 0 s
    encodeRows p.1 p.2 (row + 1) ss

/-- Modelled from the spec: one whole encoding session with the
dictionary-style policy and a fresh dictionary — `InitMatrix` on a
`batch.length × colSize` output, then the traversal; returns the
finished matrix and the dictionary. -/
def encodeBatch (batch : List (List String)) (colSize : Nat) :
    Mat × List String :=
  let m0 := DictionaryEncoding.InitMatrix ⟨[]⟩ batch.length colSize 0
  let p := encodeRows [] m0 0 batch
  (p.2, p.1)

/-! ### Shape preservation through the driver -/

theorem encodeTokens_numRows (ts : List String) (d : List String) (m : Mat)
    (row col : Nat) :
    numRows (encodeTokens d m row col ts).2 = numRows m := by
  induction ts generalizing d m col with
  | nil => rfl
  | cons t rest ih =>
    simp only [encodeTokens]
    rw [ih, encode_numRows]

theorem encodeTokens_rowLen (ts : List String) (d : List String) (m : Mat)
    (row col r : Nat) :
    rowLen (encodeTokens d m row col ts).2 r = rowLen m r := by
  induction ts generalizing d m col with
  | nil => rfl
  | cons t rest ih =>
    simp only [encodeTokens]
    rw [ih, encode_rowLen]

theorem encodeRows_numRows (ss : List (List String)) (d : List String)
    (m : Mat) (row : Nat) :
    numRows (encodeRows d m row ss).2 = numRows m := by
  induction ss generalizing d m row with
  | nil => rfl
  | cons s rest ih =>
    simp only [encodeRows]
    rw [ih, encodeTokens_numRows]

theorem encodeRows_rowLen (ss : List (List String)) (d : List String)
    (m : Mat) (row r : Nat) :
    rowLen (encodeRows d m row ss).2 r = rowLen m r := by
  induction ss generalizing d m row with
  | nil => rfl
  | cons s rest ih =>
    simp only [encodeRows]
    rw [ih, encodeTokens_rowLen]

/-- A sequence of `Encode` calls, each given as `(ele, row, col)`, applied
in order to a matrix. -/
def encodeAll (m : Mat) : List (Nat × Nat × Nat) → Mat
  | [] => m
  | x :: rest => encodeAll (DictionaryEncoding.Encode x.1 m x.2.1 x.2.2) rest

theorem encodeAll_getCell_untouched (calls : List (Nat × Nat × Nat)) (m : Mat)
    (r c : Nat) (h : ∀ x ∈ calls, ¬(r = x.2.1 ∧ c = x.2.2)) :
    getCell (encodeAll m calls) r c = getCell m r c := by
  induction calls generalizing m with
  | nil => rfl
  | cons x rest ih =>
    simp only [encodeAll]
    rw [ih _ (fun y hy => h y (List.mem_cons_of_mem x hy)),
      encode_getCell_ne _ _ _ _ _ _ (h x (List.mem_cons_self x rest))]

/-! ### The claims -/

/-- Claim C1: for every matrix, index value `ele` and in-bounds coordinates
`(row, col)`, `DictionaryEncoding::Encode(ele, output, row, col)` stores the
raw integer value `ele` itself at cell `(row, col)`, with no arithmetic
transformation. -/
theorem encode_stores_raw_value (ele : Nat) (m : Mat) (row col : Nat)
    (hr : row < numRows m) (hc : col < rowLen m row) :
    getCell (DictionaryEncoding.Encode ele m row col) row col = ele := by
  unfold getCell DictionaryEncoding.Encode
  rw [nthD_setNth_eq _ _ _ _ hr]
  exact nthD_setNth_eq _ _ _ _ hc

theorem encode_stores_raw_value_witness :
    getCell (DictionaryEncoding.Encode 7 ⟨[[5, 5], [5, 5]]⟩ 1 0) 1 0 = 7 :=
  encode_stores_raw_value 7 ⟨[[5, 5], [5, 5]]⟩ 1 0 (by decide) (by decide)

/-- Claim C2: after `DictionaryEncoding::InitMatrix(output, datasetSize,
colSize, mappingsSize)` the output has exactly `datasetSize` rows and
`colSize` columns and every entry is 0; hence encoding a batch of `R`
sequences with width `L` yields an `R × L` output matrix. -/
theorem initMatrix_zero_shape (m : Mat) (ds cs ms : Nat) :
    numRows (DictionaryEncoding.InitMatrix m ds cs ms) = ds ∧
    (∀ r, r < ds → rowLen (DictionaryEncoding.InitMatrix m ds cs ms) r = cs) ∧
    (∀ r c, getCell (DictionaryEncoding.InitMatrix m ds cs ms) r c = 0) ∧
    (∀ (batch : List (List String)) (L : Nat),
      numRows (encodeBatch batch L).1 = batch.length ∧
      ∀ r, r < batch.length → rowLen (encodeBatch batch L).1 r = L) := by
  refine ⟨?_, ?_, ?_, ?_⟩
  · simp [numRows, DictionaryEncoding.InitMatrix]
  · intro r hr
    unfold rowLen DictionaryEncoding.InitMatrix
    rw [nthD_replicate _ _ _ _ hr, List.length_replicate]
  · intro r c
    exact initMatrix_getCell m ds cs ms r c
  · intro batch L
    constructor
    · show numRows (encodeRows [] _ 0 batch).2 = batch.length
      rw [encodeRows_numRows]
      simp [numRows, DictionaryEncoding.InitMatrix]
    · intro r hr
      show rowLen (encodeRows [] _ 0 batch).2 r = L
      rw [encodeRows_rowLen]
      unfold rowLen DictionaryEncoding.InitMatrix
      rw [nthD_replicate _ _ _ _ hr, List.length_replicate]

theorem initMatrix_zero_shape_witness :
    rowLen (DictionaryEncoding.InitMatrix ⟨[]⟩ 2 3 9) 1 = 3 ∧
    rowLen (encodeBatch [["a"], []] 2).1 1 = 2 :=
  ⟨(initMatrix_zero_shape ⟨[]⟩ 2 3 9).2.1 1 (by decide),
   ((initMatrix_zero_shape ⟨[]⟩ 2 3 9).2.2.2 [["a"], []] 2).2 1 (by decide)⟩

/-- Claim C3: after `InitMatrix` on a `ds × cs` output, any sequence of
`Encode` calls that touch, in each row `r`, only columns `0 .. len r - 1`
with `len r < cs`, leaves every trailing cell `(r, c)` with
`len r ≤ c < cs` at the pad value 0. -/
theorem trailing_cells_padding (len : Nat → Nat)
    (calls : List (Nat × Nat × Nat)) (m : Mat) (ds cs ms : Nat)
    (hcalls : ∀ x ∈ calls, x.2.2 < len x.2.1 ∧ len x.2.1 < cs) :
    ∀ r c, r < ds → len r ≤ c → c < cs →
      getCell (encodeAll (DictionaryEncoding.InitMatrix m ds cs ms) calls)
        r c = 0 := by
  intro r c _ hlen _
  rw [encodeAll_getCell_untouched, initMatrix_getCell]
  intro x hx hrc
  obtain ⟨hcol, -⟩ := hcalls x hx
  rw [← hrc.1] at hcol
  exact absurd hrc.2 (Nat.ne_of_gt (Nat.lt_of_lt_of_le hcol hlen))

theorem trailing_cells_padding_witness :
    getCell (encodeAll (DictionaryEncoding.InitMatrix ⟨[]⟩ 2 2 0)
      [(5, 0, 0), (7, 1, 0)]) 1 1 = 0 :=
  trailing_cells_padding (fun _ => 1) [(5, 0, 0), (7, 1, 0)] ⟨[]⟩ 2 2 0
    (by decide) 1 1 (by decide) (by decide) (by decide)

/-- Claim C4: exactly one of `PolicyTraits<DictionaryEncoding>::isSinglePass`
and `PolicyTraits<DictionaryEncoding>::isMultiPass` is true — never both,
never neither. -/
theorem traits_exactly_one_pass :
    (dictionaryEncodingTraits.isSinglePass = true ∧
      dictionaryEncodingTraits.isMultiPass = false) ∨
    (dictionaryEncodingTraits.isSinglePass = false ∧
      dictionaryEncodingTraits.isMultiPass = true) :=
  Or.inl ⟨rfl, rfl⟩

/-- Claim C5: `DictionaryEncoding::InitMatrix` ignores its `mappingsSize`
argument — two runs differing only in that argument produce identical
output matrices. -/
theorem initMatrix_ignores_mappingsSize (m : Mat) (ds cs ms1 ms2 : Nat) :
    DictionaryEncoding.InitMatrix m ds cs ms1 =
      DictionaryEncoding.InitMatrix m ds cs ms2 :=
  rfl

/-- Claim C6: encoding `[["cat","dog"], ["dog"]]` with the dictionary-style
policy and `colSize = 2` assigns `cat → 0` and `dog → 1` in order of first
appearance and yields the matrix `[[0, 1], [1, 0]]`, the second cell of
row 1 being the padding 0. -/
theorem concrete_scenario_cat_dog :
    encodeBatch [["cat", "dog"], ["dog"]] 2 =
      (⟨[[0, 1], [1, 0]]⟩, ["cat", "dog"]) ∧
    idxOf ["cat", "dog"] "cat" = 0 ∧
    idxOf ["cat", "dog"] "dog" = 1 := by
  refine ⟨?_, rfl, rfl⟩
  rfl

/-- Claim C8: `DictionaryEncoding::Encode(ele, output, row, col)` modifies
only the cell `(row, col)`: every other entry and the matrix dimensions are
unchanged. -/
theorem encode_frame (ele : Nat) (m : Mat) (row col : Nat) :
    numRows (DictionaryEncoding.Encode ele m row col) = numRows m ∧
    (∀ r, rowLen (DictionaryEncoding.Encode ele m row col) r = rowLen m r) ∧
    (∀ r c, ¬(r = row ∧ c = col) →
      getCell (DictionaryEncoding.Encode ele m row col) r c = getCell m r c) :=
  ⟨encode_numRows ele m row col,
   fun r => encode_rowLen ele m row col r,
   fun r c h => encode_getCell_ne ele m row col r c h⟩

theorem encode_frame_witness :
    getCell (DictionaryEncoding.Encode 9 ⟨[[1, 2], [3, 4]]⟩ 0 0) 1 1 =
      getCell ⟨[[1, 2], [3, 4]]⟩ 1 1 :=
  (encode_frame 9 ⟨[[1, 2], [3, 4]]⟩ 0 0).2.2 1 1 (by decide)

/-- Claim C9: the static trait
`PolicyTraits<DictionaryEncoding>::outputWithNoPadding` is true. -/
theorem traits_outputWithNoPadding :
    dictionaryEncodingTraits.outputWithNoPadding = true :=
  rfl

theorem encode_twice (e1 e2 : Nat) (m : Mat) (row col : Nat) :
    DictionaryEncoding.Encode e2 (DictionaryEncoding.Encode e1 m row col)
      row col = DictionaryEncoding.Encode e2 m row col := by
  unfold DictionaryEncoding.Encode
  by_cases hb : row < m.data.length
  · congr 1
    rw [nthD_setNth_eq _ _ _ _ hb, setNth_setNth, setNth_setNth]
  · rw [setNth_oob _ _ _ (Nat.le_of_not_lt hb)]

/-- Claim C10: `Encode` is idempotent and last-write-wins: repeating the
same call changes nothing further, and two successive calls at the same
cell leave the state of a single second call. -/
theorem encode_last_write_wins (ele e1 e2 : Nat) (m : Mat) (row col : Nat) :
    DictionaryEncoding.Encode ele (DictionaryEncoding.Encode ele m row col)
      row col = DictionaryEncoding.Encode ele m row col ∧
    DictionaryEncoding.Encode e2 (DictionaryEncoding.Encode e1 m row col)
      row col = DictionaryEncoding.Encode e2 m row col :=
  ⟨encode_twice ele ele m row col, encode_twice e1 e2 m row col⟩

/-! ### Round-trip decoding (claim C7) -/

/-- Modelled from the spec: index `i` was assigned to token `t` during a
session that starts from dictionary `d` and processes the tokens of
`session` in order — at some step `k` the `k`-th token is `t`, `t` is not
yet in the dictionary built from the first `k` tokens, and `i` is the next
contiguous index at that point. -/
def assignedDuring (d : List String) (session : List String) (i : Nat)
    (t : String) : Prop :=
  ∃ k, k < session.length ∧
    tokenAt session k = some t ∧
    t ∉ buildDict d (session.take k) ∧
    i = (buildDict d (session.take k)).length

theorem tokenAt_append (l e : List String) (i : Nat) (x : String)
    (h : tokenAt l i = some x) : tokenAt (l ++ e) i = some x := by
  induction l generalizing i with
  | nil => simp [tokenAt] at h
  | cons y ys ih =>
    cases i with
    | zero => exact h
    | succ n => exact ih n h

theorem tokenAt_append_len (l : List String) (a : String) :
    tokenAt (l ++ [a]) l.length = some a := by
  induction l with
  | nil => rfl
  | cons y ys ih => exact ih

theorem tokenAt_oob (l : List String) (i : Nat) (h : l.length ≤ i) :
    tokenAt l i = none := by
  induction l generalizing i with
  | nil => rfl
  | cons y ys ih =>
    cases i with
    | zero => simp at h
    | succ n => exact ih n (Nat.le_of_succ_le_succ h)

theorem tokenAt_lt (l : List String) (i : Nat) (h : i < l.length) :
    ∃ x, tokenAt l i = some x := by
  induction l generalizing i with
  | nil => simp at h
  | cons y ys ih =>
    cases i with
    | zero => exact ⟨y, rfl⟩
    | succ n => exact ih n (Nat.lt_of_succ_lt_succ h)

theorem getOrAssign_fst (d : List String) (t : String) :
    (getOrAssign d t).1 = if t ∈ d then d else d ++ [t] := by
  unfold getOrAssign
  by_cases h : t ∈ d <;> simp [h]

theorem buildDict_preserves (ts : List String) (d : List String) (i : Nat)
    (x : String) (h : tokenAt d i = some x) :
    tokenAt (buildDict d ts) i = some x := by
  induction ts generalizing d with
  | nil => exact h
  | cons t rest ih =>
    refine ih _ ?_
    rw [getOrAssign_fst]
    by_cases hm : t ∈ d
    · simpa [hm] using h
    · simp only [hm, if_false]
      exact tokenAt_append d [t] i x h

theorem assigned_tokenAt (session : List String) (d : List String) (i : Nat)
    (t : String) (h : assignedDuring d session i t) :
    tokenAt (buildDict d session) i = some t := by
  induction session generalizing d with
  | nil =>
    obtain ⟨k, hk, -, -, -⟩ := h
    simp at hk
  | cons u ts ih =>
    obtain ⟨k, hk, htok, hnotin, hi⟩ := h
    cases k with
    | zero =>
      simp only [List.take_zero, buildDict] at hnotin hi
      have htu : u = t := Option.some.inj htok
      subst htu
      show tokenAt (buildDict (getOrAssign d u).1 ts) i = some u
      refine buildDict_preserves ts _ i u ?_
      rw [getOrAssign_fst]
      simp only [hnotin, if_false]
      rw [hi]
      exact tokenAt_append_len d u
    | succ n =>
      refine ih (getOrAssign d u).1 ⟨n, Nat.lt_of_succ_lt_succ hk, htok, ?_, ?_⟩
      · simpa [List.take_succ_cons, buildDict] using hnotin
      · simpa [List.take_succ_cons, buildDict] using hi

theorem lt_length_assigned (session : List String) (d : List String) (i : Nat)
    (h : i < (buildDict d session).length) :
    i < d.length ∨ ∃ t, assignedDuring d session i t := by
  induction session generalizing d with
  | nil => exact Or.inl h
  | cons u ts ih =>
    have h2 : i < (buildDict (getOrAssign d u).1 ts).length := h
    rcases ih (getOrAssign d u).1 h2 with hlt | ⟨t, k, hk, htok, hnotin, hi⟩
    · rw [getOrAssign_fst] at hlt
      by_cases hm : u ∈ d
      · rw [if_pos hm] at hlt
        exact Or.inl hlt
      · rw [if_neg hm] at hlt
        simp only [List.length_append, List.length_singleton] at hlt
        rcases Nat.lt_succ_iff_lt_or_eq.mp hlt with hlt2 | heq
        · exact Or.inl hlt2
        · refine Or.inr ⟨u, 0, Nat.succ_pos ts.length, rfl, ?_, ?_⟩
          · simpa [buildDict] using hm
          · simpa [buildDict] using heq
    · refine Or.inr ⟨t, k + 1, Nat.succ_lt_succ hk, htok, ?_, ?_⟩
      · simpa [List.take_succ_cons, buildDict] using hnotin
      · simpa [List.take_succ_cons, buildDict] using hi

/-- Claim C7: in a session started from an empty dictionary, every index
assigned to a token is decoded by `TokenAt` back to that token, and
`TokenAt` fails (`NotFoundError`, here `none`) on every index that was
never assigned. -/
theorem tokenAt_round_trip (session : List String) :
    (∀ i t, assignedDuring [] session i t →
      tokenAt (buildDict [] session) i = some t) ∧
    (∀ i, (∀ t, ¬ assignedDuring [] session i t) →
      tokenAt (buildDict [] session) i = none) := by
  constructor
  · intro i t h
    exact assigned_tokenAt session [] i t h
  · intro i h
    by_cases hlt : i < (buildDict [] session).length
    · rcases lt_length_assigned session [] i hlt with h0 | ⟨t, ht⟩
      · simp at h0
      · exact absurd ht (h t)
    · exact tokenAt_oob _ _ (Nat.le_of_not_lt hlt)

theorem tokenAt_round_trip_witness :
    tokenAt (buildDict [] ["cat", "dog", "dog"]) 1 = some "dog" ∧
    tokenAt (buildDict [] ["cat", "dog", "dog"]) 5 = none := by
  constructor
  · exact (tokenAt_round_trip ["cat", "dog", "dog"]).1 1 "dog"
      ⟨1, by decide, by decide, by decide, by decide⟩
  · refine (tokenAt_round_trip ["cat", "dog", "dog"]).2 5 ?_
    rintro t ⟨k, hk, -, -, hi⟩
    have hk3 : k < 3 := hk
    interval_cases k
    · exact absurd hi (by decide)
    · exact absurd hi (by decide)
    · exact absurd hi (by decide)

end Mlpack
